import Mathlib

/-!
Shallow embedding of the sulphate discrete-event simulation library
(src/event_queue.rs, src/entity_heap.rs, src/time.rs, src/server.rs),
together with theorems settling the specification claims.

The event queue is a Rust `std::collections::BinaryHeap` of
`QueueElement`s whose `Ord` reverses the order on `execute_time`
(lower time = higher priority).  We model the heap by its backing
array (a `List`, index 0 = root) and transcribe the standard
library's `sift_up` / `sift_down_to_bottom` algorithms, which is
what determines the order in which equal-time elements are popped.
Loops are written with an explicit fuel argument so that every
definition is a structural recursion the kernel can evaluate; the
fuel supplied at each call site is an exact bound on the number of
iterations the Rust loop performs, so no behaviour is lost.
-/

namespace Sulphate

/-- `QueueElement` from src/event_queue.rs: a scheduled callback. -/
structure QueueElement (E T : Type) where
  execute_time : T
  call_back : E
deriving DecidableEq

variable {E T : Type} [LinearOrder T]

/-- Index of the parent of heap slot `j` in the backing array. -/
def parentIdx (j : Nat) : Nat := (j - 1) / 2

/-- Swap two in-bounds positions of the backing array (used by the
sift loops; out-of-range indices leave the list unchanged, a case the
algorithms never reach). -/
def lswap (l : List α) (i j : Nat) : List α :=
  match l.get? i, l.get? j with
  | some a, some b => (l.set i b).set j a
  | _, _ => l

/-- `BinaryHeap::sift_up` (hole optimisation flattened to swaps, which
yields the same array).  The Rust loop moves the element at `pos`
towards the root while it is strictly greater than its parent; for
`QueueElement` "greater" means an earlier `execute_time`.  `fuel` bounds
the iteration count; `pos` itself is always sufficient since the
position strictly decreases. -/
def siftUpF (fuel : Nat) (l : List (QueueElement E T)) (pos : Nat) :
    List (QueueElement E T) :=
  match fuel with
  | 0 => l
  | fuel + 1 =>
    if pos = 0 then l else
    match l.get? (parentIdx pos), l.get? pos with
    | some p, some x =>
      if x.execute_time < p.execute_time then
        siftUpF fuel (lswap l (parentIdx pos) pos) (parentIdx pos)
      else l
    | _, _ => l

/-- `sift_up(0, pos)` with its exact fuel. -/
def sift_up (l : List (QueueElement E T)) (pos : Nat) :
    List (QueueElement E T) :=
  siftUpF pos l pos

/-- `BinaryHeap::push`: append, then sift up from the last slot. -/
def heapPush (l : List (QueueElement E T)) (x : QueueElement E T) :
    List (QueueElement E T) :=
  sift_up (l ++ [x]) l.length

/-- The descent loop of `BinaryHeap::sift_down_to_bottom`: walk the
hole to the bottom of the tree, always through the greater child
(for equal priorities Rust picks the right child), returning the final
position together with the rearranged array. -/
def sdtbF (fuel : Nat) (l : List (QueueElement E T)) (pos : Nat) :
    Nat × List (QueueElement E T) :=
  match fuel with
  | 0 => (pos, l)
  | fuel + 1 =>
    match l.get? (2 * pos + 1) with
    | none => (pos, l)
    | some cL =>
      let c : Nat :=
        match l.get? (2 * pos + 2) with
        | none => 2 * pos + 1
        | some cR =>
          if cL.execute_time < cR.execute_time then 2 * pos + 1
          else 2 * pos + 2
      sdtbF fuel (lswap l pos c) c

/-- `sift_down_to_bottom(0)` as used by `BinaryHeap::pop`: descend to
the bottom, then sift the displaced element back up. -/
def heapPopFix (l : List (QueueElement E T)) : List (QueueElement E T) :=
  sift_up (sdtbF l.length l 0).2 (sdtbF l.length l 0).1

/-- `BinaryHeap::pop`: remove the last array element; if the heap is
still non-empty swap it with the root, return the old root and repair
with `sift_down_to_bottom`. -/
def heapPop (l : List (QueueElement E T)) :
    Option (QueueElement E T × List (QueueElement E T)) :=
  match l.getLast? with
  | none => none
  | some item =>
    match l.dropLast with
    | [] => some (item, [])
    | r :: rest => some (r, heapPopFix (item :: rest))

/-- `EventQueue` from src/event_queue.rs: current time plus the
binary heap's backing array. -/
structure EventQueue (E T : Type) where
  now : T
  queue : List (QueueElement E T)
deriving DecidableEq

/-- `EventQueue::new`. -/
def EventQueue.new (initial_time : T) : EventQueue E T :=
  ⟨initial_time, []⟩

/-- `EventQueue::soonest`: peek the root's execute time. -/
def EventQueue.soonest (q : EventQueue E T) : Option T :=
  q.queue.head?.map QueueElement.execute_time

/-- `EventQueue::has_event_by`. -/
def EventQueue.has_event_by (q : EventQueue E T) (time : T) : Bool :=
  match q.soonest with
  | some next_time => next_time ≤ time
  | none => false

/-- `EventQueue::is_empty`. -/
def EventQueue.is_empty (q : EventQueue E T) : Bool :=
  q.queue.isEmpty

/-- `EventQueue::enqueue_absolute`. -/
def EventQueue.enqueue_absolute (q : EventQueue E T) (event : E)
    (execute_time : T) : EventQueue E T :=
  ⟨q.now, heapPush q.queue ⟨execute_time, event⟩⟩

/-- `EventQueue::enqueue_relative`: schedule at `now + delay`. -/
def EventQueue.enqueue_relative {D : Type} [HAdd T D T]
    (q : EventQueue E T) (event : E) (execute_delay : D) : EventQueue E T :=
  q.enqueue_absolute event (q.now + execute_delay)

/-- `EventQueue::progress_time`: set `now` to the soonest event time
when there is an event by `u`, otherwise to `u`; return
`has_event_by u`.  (The `soonest().unwrap()` in the source is only
reached when `has_event_by` is true, i.e. when the queue is non-empty;
the `none` fallback below is that unreachable branch.) -/
def EventQueue.progress_time (q : EventQueue E T) (u : T) :
    EventQueue E T × Bool :=
  let heb := q.has_event_by u
  (⟨if heb then
      match q.soonest with
      | some s => s
      | none => u
    else u, q.queue⟩, heb)

/-- The `Simulation` impl from src/event_queue.rs is generic over any
game state `G` with `AsMut<EventQueue<E, T>>` whose events
`E: GeneralEvent<G>` mutate the whole game.  A `SimCtx` packages that
interface: queue access and the event dispatch function. -/
structure SimCtx (G E T : Type) [LinearOrder T] where
  getQ : G → EventQueue E T
  setQ : G → EventQueue E T → G
  invoke : E → G → G
  get_set : ∀ g q, getQ (setQ g q) = q

/-- `Simulation::invoke_next`: pop one element; if the heap was empty
return unchanged; otherwise clamp `now` forward to the popped
`execute_time` and invoke the callback on the whole game. -/
def invoke_next {G : Type} (c : SimCtx G E T) (g : G) : G :=
  match heapPop (c.getQ g).queue with
  | none => g
  | some (qe, rest) =>
    c.invoke qe.call_back
      (c.setQ g
        ⟨if (c.getQ g).now < qe.execute_time then qe.execute_time
         else (c.getQ g).now,
         rest⟩)

/-- `Simulation::simulate`: `while has_event_by(until) { invoke_next }`
then `now := until`.  The Rust loop need not terminate (an event can
re-enqueue at a time `≤ until`), so the model takes a fuel bound on the
number of iterations and returns `none` when the loop is still running
after `fuel` iterations. -/
def simulate {G : Type} (c : SimCtx G E T) :
    Nat → G → T → Option G
  | fuel, g, u =>
    if (c.getQ g).has_event_by u then
      match fuel with
      | 0 => none
      | fuel + 1 => simulate c fuel (invoke_next c g) u
    else
      some (c.setQ g ⟨u, (c.getQ g).queue⟩)

/-- Min-heap bound between two slots of the backing array: whenever
both are populated, slot `i`'s time is `≤` slot `j`'s time.  (The Rust
heap is a max-heap for the reversed `QueueElement` order, i.e. a
min-heap on `execute_time`.) -/
def heapLe (l : List (QueueElement E T)) (i j : Nat) : Prop :=
  ∀ x y, l.get? i = some x → l.get? j = some y →
    x.execute_time ≤ y.execute_time

/-- The binary-heap representation invariant of the backing array:
every slot is `≥` (in time) its parent. -/
def IsHeap (l : List (QueueElement E T)) : Prop :=
  ∀ j : Nat, heapLe l (parentIdx j) j

/-!
## Entity store (src/entity_heap.rs)

`EntityHeap` is a `HashMap<(TypeId, UID), Box<Any>>` plus a
`XorShiftRng`.  Rust's static types are modelled by a universe: a type
`Code` of type identifiers (with decidable equality, as `TypeId` has)
and a family `deno` giving each code its value type.  The hash map is
modelled as an association list with at most the map's operations
(first-match lookup, replace-or-append insert, remove-first); the PRNG
is modelled by its output stream `key_seed : Nat → Nat` (the successive
`next_u64` results) and a cursor `seed_pos`.
-/

/-- One entry of the store: the boxed value together with the
`(TypeId, UID)` key it is filed under.  Storing the value at type
`deno ty` makes the `downcast` of the source succeed by construction. -/
structure DynEntry (Code : Type) (deno : Code → Type) where
  ty : Code
  uid : Nat
  val : deno ty

/-- `EntityHeap` from src/entity_heap.rs. -/
structure EntityHeap (Code : Type) (deno : Code → Type) where
  content : List (DynEntry Code deno)
  key_seed : Nat → Nat
  seed_pos : Nat

variable {Code : Type} [DecidableEq Code] {deno : Code → Type}

/-- `HashMap::contains_key` on the modelled map. -/
def EntityHeap.contains_key (h : EntityHeap Code deno) (ty : Code)
    (k : Nat) : Bool :=
  h.content.any fun e => decide (e.ty = ty) && decide (e.uid = k)

/-- `HashMap::get` followed by the (always successful) downcast. -/
def lookupContent (l : List (DynEntry Code deno)) (ty : Code) (k : Nat) :
    Option (deno ty) :=
  match l with
  | [] => none
  | e :: rest =>
    if h : e.ty = ty ∧ e.uid = k then some (h.1 ▸ e.val)
    else lookupContent rest ty k

/-- `EntityHeap::get` (the type parameter `T` of the source is the
explicit `ty` code here). -/
def EntityHeap.get (h : EntityHeap Code deno) (ty : Code) (k : Nat) :
    Option (deno ty) :=
  lookupContent h.content ty k

/-- `HashMap::insert`: replace the value stored at the key (returning
the prior value) or append a fresh entry. -/
def insertContent (l : List (DynEntry Code deno)) (ty : Code) (k : Nat)
    (v : deno ty) : List (DynEntry Code deno) × Option (deno ty) :=
  match l with
  | [] => ([⟨ty, k, v⟩], none)
  | e :: rest =>
    if h : e.ty = ty ∧ e.uid = k then (⟨ty, k, v⟩ :: rest, some (h.1 ▸ e.val))
    else
      let p := insertContent rest ty k v
      (e :: p.1, p.2)

/-- `HashMap::remove`: delete the entry at the key, returning it. -/
def removeContent (l : List (DynEntry Code deno)) (ty : Code) (k : Nat) :
    List (DynEntry Code deno) × Option (deno ty) :=
  match l with
  | [] => ([], none)
  | e :: rest =>
    if h : e.ty = ty ∧ e.uid = k then (rest, some (h.1 ▸ e.val))
    else
      let p := removeContent rest ty k
      (e :: p.1, p.2)

/-- `EntityHeap::new_uid`: draw from the PRNG stream until the value is
not a live key of the given type.  The Rust `loop` has no bound, so the
model takes a fuel for the number of draws and returns `none` when it
is exhausted. -/
def EntityHeap.new_uid (fuel : Nat) (h : EntityHeap Code deno)
    (ty : Code) : Option (Nat × EntityHeap Code deno) :=
  match fuel with
  | 0 => none
  | fuel + 1 =>
    let id := h.key_seed h.seed_pos
    let h' : EntityHeap Code deno := ⟨h.content, h.key_seed, h.seed_pos + 1⟩
    if h.contains_key ty id then EntityHeap.new_uid fuel h' ty
    else some (id, h')

/-- `EntityHeap::add`: generate a fresh UID, insert the value under it.
(The source's `debug_assert!(overflow.is_none())` holds because the key
was just checked unused.) -/
def EntityHeap.add (fuel : Nat) (h : EntityHeap Code deno) (ty : Code)
    (v : deno ty) : Option (Nat × EntityHeap Code deno) :=
  match h.new_uid fuel ty with
  | none => none
  | some (id, h') =>
    some (id, ⟨(insertContent h'.content ty id v).1, h'.key_seed, h'.seed_pos⟩)

/-- `EntityHeap::remove`. -/
def EntityHeap.remove (h : EntityHeap Code deno) (ty : Code) (k : Nat) :
    Option (deno ty) × EntityHeap Code deno :=
  ((removeContent h.content ty k).2,
   ⟨(removeContent h.content ty k).1, h.key_seed, h.seed_pos⟩)

/-- Modelled from the spec: `insert<V>(uid, value) → Option<prior V>`
"replaces any prior value stored at `(TypeTag(V), uid)`; returns it"
(§4.1).  src/entity_heap.rs has no public `insert` method — only the
internal `HashMap::insert` call inside `add` — so this public operation
is taken from the spec's words. -/
def EntityHeap.insert (h : EntityHeap Code deno) (ty : Code) (k : Nat)
    (v : deno ty) : Option (deno ty) × EntityHeap Code deno :=
  ((insertContent h.content ty k v).2,
   ⟨(insertContent h.content ty k v).1, h.key_seed, h.seed_pos⟩)

/-- Sequential `add` calls of one type, collecting the returned UIDs. -/
def addAll (fuel : Nat) (ty : Code) :
    List (deno ty) → EntityHeap Code deno →
      Option (List Nat × EntityHeap Code deno)
  | [] => fun h => some ([], h)
  | v :: vs => fun h =>
    match EntityHeap.add fuel h ty v with
    | none => none
    | some (id, h') =>
      match addAll fuel ty vs h' with
      | none => none
      | some (ids, h'') => some (id :: ids, h'')

/-!
## Time values (src/time.rs)

`Time` wraps an `f64`.  The only `f64` facilities the source uses are
`is_nan` and `partial_cmp`, so a double is modelled by its ordering
class: NaN, the two infinities, or a finite value (every finite double
has an exact rational value, and `f64` comparison of finite doubles
agrees with the comparison of those rationals; `partial_cmp` is `none`
exactly when one side is NaN). -/

inductive F64 : Type where
  | nan : F64
  | negInf : F64
  | posInf : F64
  | finite : ℚ → F64
deriving DecidableEq

/-- `f64::is_nan`. -/
def F64.is_nan : F64 → Bool
  | .nan => true
  | _ => false

/-- `f64::partial_cmp` (IEEE 754: `none` iff a NaN is involved,
otherwise the numeric order with `-∞ < finite < +∞`). -/
def F64.cmp : F64 → F64 → Option Ordering
  | .nan, _ => none
  | _, .nan => none
  | .negInf, .negInf => some .eq
  | .negInf, _ => some .lt
  | _, .negInf => some .gt
  | .posInf, .posInf => some .eq
  | _, .posInf => some .lt
  | .posInf, _ => some .gt
  | .finite p, .finite q => some (compare p q)

/-- `Time` from src/time.rs. -/
structure Time where
  val : F64
deriving DecidableEq

/-- `Time::try_from`: `if !val.is_nan() { Some(Time(val)) } else { None }`. -/
def Time.try_from (val : F64) : Option Time :=
  if val.is_nan = false then some ⟨val⟩ else none

/-- `Time::as_float`. -/
def Time.as_float (t : Time) : F64 := t.val

/-- `Ord for Time`: `partial_cmp(...).expect("Unexpected NaN")`.
The `none` result models the panic branch. -/
def Time.cmp (a b : Time) : Option Ordering :=
  F64.cmp a.val b.val

/-!
## Server residual sleep (src/server.rs)

`recv_timeout_or_sleep` is real-time code; the part of it a shallow
embedding can capture is its arithmetic on instants.  `Instant` is a
point on a wall-clock number line, modelled as a `Nat`; the receive
outcome and the fresh `Instant::now()` reading taken after the receive
are inputs of the model.  `Instant - Instant` panics when the
subtrahend is the later instant (`std` behaviour at this crate's
vintage, pre-1.60 Rust), which `instantSub` models by `none`. -/

/-- `std::time::Instant` subtraction: `a - b`, panicking (`none`)
when `b` is later than `a`. -/
def instantSub (a b : Nat) : Option Nat :=
  if b ≤ a then some (a - b) else none

/-- `Server::recv_timeout_or_sleep(sleep_for, now)`: compute
`sleep_until := now + sleep_for`; do the bounded receive (its outcome
is the `msg` input); on no message, sleep `sleep_until - Instant::now()`
(the fresh reading is the `fresh_now` input).  The result is `none` when
that subtraction panics, otherwise the received message (if any) and the
residual duration slept. -/
def recv_timeout_or_sleep {I : Type} (msg : Option I)
    (sleep_for now fresh_now : Nat) : Option (Option I × Nat) :=
  let sleep_until := now + sleep_for
  match msg with
  | some m => some (some m, 0)
  | none =>
    match instantSub sleep_until fresh_now with
    | some residual => some (none, residual)
    | none => none

/-!
## Concrete instantiations used by the witnesses and counterexamples
-/

/-- A game for exercising the dispatch order: an event queue over
integer times whose events are labels that append themselves to a log
when invoked. -/
structure LogGame where
  queue : EventQueue Nat Int
  log : List Nat
deriving DecidableEq

/-- The `Simulation` instance for `LogGame`. -/
def logCtx : SimCtx LogGame Nat Int where
  getQ := LogGame.queue
  setQ g q := { g with queue := q }
  invoke e g := { g with log := g.log ++ [e] }
  get_set := fun _ _ => rfl

/-- The queue of the spec's ordering scenario: events `A@5, B@3, C@3,
D@10` (labels `0,1,2,3`) enqueued in that insertion order. -/
def exampleQueue : EventQueue Nat Int :=
  ((((EventQueue.new 0).enqueue_absolute 0 5).enqueue_absolute 1 3).enqueue_absolute
      2 3).enqueue_absolute 3 10

/-- The ordering scenario's initial game state. -/
def exampleGame : LogGame := ⟨exampleQueue, []⟩

/-- A game whose single kind of event re-enqueues itself at time `3`
when invoked: the state is just the queue itself. -/
def selfCtx : SimCtx (EventQueue Unit Int) Unit Int where
  getQ := id
  setQ _ q := q
  invoke _ g := g.enqueue_absolute () 3
  get_set := fun _ _ => rfl

/-- The self-re-enqueueing game's initial state: one event at time 3. -/
def loopGame : EventQueue Unit Int :=
  (EventQueue.new 3).enqueue_absolute () 3

/-- Code universe for the entity-store witnesses: two distinct static
types, `true ↦ Nat` and `false ↦ Bool`. -/
@[reducible] def bdeno : Bool → Type := fun b => cond b Nat Bool

/-- An empty store whose PRNG output stream is constantly `7`. -/
def regressHeap : EntityHeap Bool bdeno :=
  ⟨[], fun _ => 7, 0⟩

/-- An empty store whose PRNG output stream is `0, 1, 2, ...`. -/
def countingHeap : EntityHeap Bool bdeno :=
  ⟨[], fun n => n, 0⟩

/-- `add`, `remove` the returned UID, `add` again, collecting the two
returned UIDs (the trace refuting history-wide UID distinctness). -/
def reuseTrace : Option (Nat × Nat) :=
  match regressHeap.add 1 true (show bdeno true from (100 : Nat)) with
  | none => none
  | some (id1, h1) =>
    match (h1.remove true id1).2.add 1 true (show bdeno true from (200 : Nat)) with
    | none => none
    | some (id2, _) => some (id1, id2)

/-- A store already holding `10` at key `(true, 1)`, for the
round-trip claim. -/
def occupiedHeap : EntityHeap Bool bdeno :=
  ⟨[⟨true, 1, (show bdeno true from (10 : Nat))⟩], fun _ => 7, 0⟩

/-- A two-event queue (label 0 at time 5, label 1 at time 3) used by
concrete witnesses. -/
def pairQueue : EventQueue Nat Int :=
  ((EventQueue.new 0).enqueue_absolute 0 5).enqueue_absolute 1 3

/-!
## Theorems
-/

/-- C1 (counterexample): on the spec's own scenario (`A@5, B@3, C@3,
D@10` enqueued in that order), a single `invoke_next` call dispatches
only `B` (label 1); the other member of the time-3 tie group, `C`, is
still queued afterwards.  A single call therefore does not dispatch the
whole tie group. -/
theorem c1_invoke_next_counterexample :
    (invoke_next logCtx exampleGame).log = [1]
    ∧ ((invoke_next logCtx exampleGame).queue.queue.map
        QueueElement.execute_time) = [3, 5, 10] :=
  ⟨rfl, rfl⟩

/-- C2 (counterexample): `progress_time` does not guard against
decreasing `now`: on the empty queue with `now = 5`, `progress_time 3`
sets `now` to `3 < 5`. -/
theorem c2_progress_time_counterexample :
    ((EventQueue.mk 5 ([] : List (QueueElement Nat Int))).progress_time
        3).1.now
      < (EventQueue.mk 5 ([] : List (QueueElement Nat Int))).now := by
  decide

/-- C2 (amended): `now` is unchanged by both enqueue operations, and
the queue update inside `invoke_next` only moves `now` forward; but
`progress_time` can decrease `now` (it assigns `min(until, soonest)`
with no comparison against the current `now`). -/
theorem c2_now_monotonicity_amended :
    (∀ (q : EventQueue Nat Int) (e : Nat) (t : Int),
        (q.enqueue_absolute e t).now = q.now)
    ∧ (∀ (q : EventQueue Nat Int) (e : Nat) (d : Int),
        (q.enqueue_relative e d).now = q.now)
    ∧ (∀ g : LogGame, g.queue.now ≤ (invoke_next logCtx g).queue.now)
    ∧ (∃ (q : EventQueue Nat Int) (u : Int),
        (q.progress_time u).1.now < q.now) := by
  refine ⟨fun _ _ _ => rfl, fun _ _ _ => rfl, fun g => ?_,
    ⟨⟨5, []⟩, 3, by decide⟩⟩
  unfold invoke_next
  cases h : heapPop (logCtx.getQ g).queue with
  | none => exact le_refl _
  | some p =>
    obtain ⟨qe, rest⟩ := p
    show g.queue.now ≤ (logCtx.invoke qe.call_back _).queue.now
    show g.queue.now ≤ if g.queue.now < qe.execute_time then qe.execute_time
      else g.queue.now
    by_cases hlt : g.queue.now < qe.execute_time
    · rw [if_pos hlt]
      exact le_of_lt hlt
    · rw [if_neg hlt]

/-- Iterating `simulate` on the self-re-enqueueing game never
finishes: the single event at time 3 is re-enqueued at time 3 by its
own invocation, so `has_event_by 5` stays true forever. -/
theorem simulate_self_loop (n : Nat) :
    simulate selfCtx n loopGame 5 = none := by
  induction n with
  | zero => rfl
  | succ n ih =>
    show simulate selfCtx n (invoke_next selfCtx loopGame) 5 = none
    exact ih

/-- C4 (counterexample): `simulate` does not terminate for every game:
with a single event at time 3 whose invocation re-enqueues itself at
time 3, the drain loop of `simulate(game, 5)` runs forever (no fuel
bound ever completes it). -/
theorem c4_simulate_counterexample :
    ¬ ∃ n : Nat, (simulate selfCtx n loopGame 5).isSome = true := by
  rintro ⟨n, hn⟩
  rw [simulate_self_loop n] at hn
  exact Bool.false_ne_true hn

/-- C5 (counterexample): `Time::try_from` accepts positive infinity
(it only tests `is_nan`), contradicting "returns None whenever x is NaN
or infinite". -/
theorem c5_try_from_counterexample :
    Time.try_from F64.posInf = some ⟨F64.posInf⟩ :=
  rfl

/-- C5 (amended): `Time::try_from` rejects exactly NaN — it returns
`none` iff the input is NaN and `Some(Time(x))` for every non-NaN `x`,
finite or infinite; on such values `Ord::cmp` (modelled by `Time.cmp`,
`none` = the NaN panic) is total, and on finite values it agrees with
the numeric (rational) comparison. -/
theorem c5_try_from_amended :
    (∀ x : F64, Time.try_from x = none ↔ x.is_nan = true)
    ∧ (∀ x : F64, x.is_nan = false → Time.try_from x = some ⟨x⟩)
    ∧ (∀ a b : Time, a.val.is_nan = false → b.val.is_nan = false →
        (Time.cmp a b).isSome = true)
    ∧ (∀ p q : ℚ, F64.cmp (.finite p) (.finite q) = some (compare p q)) := by
  refine ⟨fun x => ?_, fun x h => ?_, fun a b ha hb => ?_, fun _ _ => rfl⟩
  · cases x <;> simp [Time.try_from, F64.is_nan]
  · simp [Time.try_from, h]
  · obtain ⟨va⟩ := a
    obtain ⟨vb⟩ := b
    cases va <;> cases vb <;>
      simp_all [Time.cmp, F64.cmp, F64.is_nan]

/-- Witness for C5 (amended) at concrete inputs: `-∞` is accepted and
comparable with a finite value. -/
theorem c5_try_from_amended_witness :
    Time.try_from F64.negInf = some ⟨F64.negInf⟩
    ∧ (Time.cmp ⟨F64.negInf⟩ ⟨F64.finite 2⟩).isSome = true :=
  ⟨c5_try_from_amended.2.1 F64.negInf rfl,
   c5_try_from_amended.2.2.1 ⟨F64.negInf⟩ ⟨F64.finite 2⟩ rfl rfl⟩

/-- C9 (code bug): when the bounded receive times out and the fresh
`Instant::now()` reading (here 7) is already past the deadline
`anchor + sleep_for = 0 + 5`, the residual-sleep computation
`sleep_until - Instant::now()` panics (models `Instant` subtraction of
a later instant, which the source performs with no positivity guard). -/
theorem c9_residual_sleep_panics :
    recv_timeout_or_sleep (I := Unit) none 5 0 7 = none :=
  rfl

/-- C10: `invoke_next` on a game whose event queue is empty returns the
game unchanged — no event is invoked and neither the queue (including
`now`) nor any other component of the state is touched. -/
theorem c10_invoke_next_empty_noop {G E T : Type} [LinearOrder T]
    (c : SimCtx G E T) (g : G) (h : (c.getQ g).queue = []) :
    invoke_next c g = g := by
  unfold invoke_next
  rw [h]
  rfl

/-- Witness for C10 at a concrete empty game. -/
theorem c10_invoke_next_empty_noop_witness :
    invoke_next logCtx ⟨EventQueue.new 0, []⟩ = ⟨EventQueue.new 0, []⟩ :=
  c10_invoke_next_empty_noop logCtx ⟨EventQueue.new 0, []⟩ rfl

/-!
### Binary heap lemmas

The representation invariant `IsHeap` is preserved by `heapPush` and
`heapPop`, and under it the root is a minimum-time element.  The proofs
follow the standard sift-up / sift-down-to-bottom arguments.
-/

section HeapLemmas

variable {E T : Type} [LinearOrder T]

theorem parentIdx_le (j : Nat) : parentIdx j ≤ j :=
  le_trans (Nat.div_le_self _ _) (Nat.sub_le _ _)

theorem parentIdx_lt (j : Nat) (h : j ≠ 0) : parentIdx j < j :=
  lt_of_le_of_lt (Nat.div_le_self _ _)
    (Nat.sub_lt (Nat.pos_of_ne_zero h) Nat.one_pos)

theorem get?_some_of_lt {l : List α} {i : Nat} (h : i < l.length) :
    ∃ a, l.get? i = some a :=
  ⟨l.get ⟨i, h⟩, List.get?_eq_get h⟩

theorem lt_of_get?_eq_some {l : List α} {i : Nat} {a : α}
    (h : l.get? i = some a) : i < l.length := by
  obtain ⟨hl, -⟩ := List.get?_eq_some.mp h
  exact hl

theorem lswap_length (l : List α) (i j : Nat) :
    (lswap l i j).length = l.length := by
  unfold lswap
  cases l.get? i <;> cases l.get? j <;> simp

theorem lswap_get?_left {l : List α} {i j : Nat} {a b : α} (hij : i ≠ j)
    (ha : l.get? i = some a) (hb : l.get? j = some b) :
    (lswap l i j).get? i = some b := by
  unfold lswap
  rw [ha, hb]
  show ((l.set i b).set j a).get? i = some b
  rw [List.get?_set_ne _ _ (Ne.symm hij),
    List.get?_set_eq_of_lt _ (lt_of_get?_eq_some ha)]

theorem lswap_get?_right {l : List α} {i j : Nat} {a b : α} (_hij : i ≠ j)
    (ha : l.get? i = some a) (hb : l.get? j = some b) :
    (lswap l i j).get? j = some a := by
  unfold lswap
  rw [ha, hb]
  show ((l.set i b).set j a).get? j = some a
  rw [List.get?_set_eq_of_lt]
  rw [List.length_set]
  exact lt_of_get?_eq_some hb

theorem lswap_get?_other {l : List α} {i j k : Nat} (hki : k ≠ i)
    (hkj : k ≠ j) : (lswap l i j).get? k = l.get? k := by
  unfold lswap
  cases l.get? i with
  | none => cases l.get? j <;> rfl
  | some a =>
    cases l.get? j with
    | none => rfl
    | some b =>
      show ((l.set i b).set j a).get? k = l.get? k
      rw [List.get?_set_ne _ _ (Ne.symm hkj),
        List.get?_set_ne _ _ (Ne.symm hki)]

theorem heapLe_of_get? {l : List (QueueElement E T)} {i j : Nat}
    {x y : QueueElement E T} (hx : l.get? i = some x)
    (hy : l.get? j = some y) (h : x.execute_time ≤ y.execute_time) :
    heapLe l i j := by
  intro a b ha hb
  rw [hx] at ha
  cases ha
  rw [hy] at hb
  cases hb
  exact h

theorem heapLe_refl (l : List (QueueElement E T)) (i : Nat) :
    heapLe l i i := by
  intro a b ha hb
  rw [ha] at hb
  cases hb
  exact le_refl _

theorem heapLe_oob {l : List (QueueElement E T)} {j : Nat} (i : Nat)
    (h : l.length ≤ j) : heapLe l i j := by
  intro a b _ hb
  rw [List.get?_eq_none.mpr h] at hb
  cases hb

/-- Sift-up correctness: if every parent bound holds except possibly at
`pos`, and the children of `pos` are bounded below by `pos`'s parent,
then sifting up from `pos` yields a heap.  `fuel ≥ pos` suffices since
the position strictly decreases each iteration. -/
theorem siftUpF_isHeap :
    ∀ (fuel : Nat) (l : List (QueueElement E T)) (pos : Nat),
      pos ≤ fuel → pos < l.length →
      (∀ j, j ≠ pos → heapLe l (parentIdx j) j) →
      (∀ c, parentIdx c = pos → c ≠ pos → heapLe l (parentIdx pos) c) →
      IsHeap (siftUpF fuel l pos) := by
  intro fuel
  induction fuel with
  | zero =>
    intro l pos hf _ hA _
    have hpos0 : pos = 0 := Nat.le_zero.mp hf
    subst hpos0
    intro j
    show heapLe l (parentIdx j) j
    by_cases hj : j = 0
    · subst hj
      exact heapLe_refl l 0
    · exact hA j hj
  | succ fuel ih =>
    intro l pos hf hp hA hC
    rw [siftUpF]
    by_cases h0 : pos = 0
    · rw [if_pos h0]
      subst h0
      intro j
      by_cases hj : j = 0
      · subst hj
        exact heapLe_refl l 0
      · exact hA j hj
    · rw [if_neg h0]
      obtain ⟨p, hpp⟩ := get?_some_of_lt
        (lt_of_le_of_lt (parentIdx_le pos) hp)
      obtain ⟨x, hx⟩ := get?_some_of_lt hp
      rw [hpp, hx]
      show IsHeap (if x.execute_time < p.execute_time then
        siftUpF fuel (lswap l (parentIdx pos) pos) (parentIdx pos) else l)
      have hppne : parentIdx pos ≠ pos := Nat.ne_of_lt (parentIdx_lt pos h0)
      by_cases hlt : x.execute_time < p.execute_time
      · rw [if_pos hlt]
        have hx' : (lswap l (parentIdx pos) pos).get? (parentIdx pos)
            = some x := lswap_get?_left hppne hpp hx
        have hp' : (lswap l (parentIdx pos) pos).get? pos = some p :=
          lswap_get?_right hppne hpp hx
        apply ih
        · exact Nat.le_of_lt_succ (lt_of_lt_of_le (parentIdx_lt pos h0) hf)
        · rw [lswap_length]
          exact lt_of_le_of_lt (parentIdx_le pos) hp
        · -- all parent bounds except at the new position `parentIdx pos`
          intro j hj
          by_cases hjpos : j = pos
          · subst hjpos
            exact heapLe_of_get? (by rw [hx']) hp' (le_of_lt hlt)
          · have hjl : (lswap l (parentIdx pos) pos).get? j = l.get? j :=
              lswap_get?_other hj hjpos
            by_cases hpj : parentIdx j = pos
            · -- j is a child of pos: use the grandparent bound hC
              intro a b ha hb
              rw [hpj, hp'] at ha
              cases ha
              rw [hjl] at hb
              exact hC j hpj hjpos p b hpp hb
            · by_cases hpjp : parentIdx j = parentIdx pos
              · -- j is the sibling of pos (or another child of its parent)
                intro a b ha hb
                rw [hpjp, hx'] at ha
                cases ha
                rw [hjl] at hb
                exact le_trans (le_of_lt hlt) (hA j hjpos p b (hpjp ▸ hpp) hb)
              · -- untouched pair
                intro a b ha hb
                rw [lswap_get?_other hpjp hpj] at ha
                rw [hjl] at hb
                exact hA j hjpos a b ha hb
        · -- children of the new position bounded by its parent
          intro c hpc hcne
          by_cases hgp : parentIdx (parentIdx pos) = parentIdx pos
          · -- parentIdx pos = 0: its "parent" is itself, holding x
            intro a b ha hb
            rw [hgp, hx'] at ha
            cases ha
            by_cases hcpos : c = pos
            · subst hcpos
              rw [hp'] at hb
              cases hb
              exact le_of_lt hlt
            · rw [lswap_get?_other hcne hcpos] at hb
              exact le_trans (le_of_lt hlt) (hA c hcpos p b (hpc ▸ hpp) hb)
          · intro a b ha hb
            have hgpos : parentIdx (parentIdx pos) ≠ pos :=
              Nat.ne_of_lt (lt_of_le_of_lt (parentIdx_le _)
                (parentIdx_lt pos h0))
            rw [lswap_get?_other hgp hgpos] at ha
            by_cases hcpos : c = pos
            · rw [hcpos, hp'] at hb
              cases hb
              exact hA (parentIdx pos) hppne a p ha hpp
            · rw [lswap_get?_other hcne hcpos] at hb
              exact le_trans (hA (parentIdx pos) hppne a p ha hpp)
                (hA c hcpos p b (hpc ▸ hpp) hb)
      · rw [if_neg hlt]
        intro j
        by_cases hj : j = pos
        · subst hj
          exact heapLe_of_get? hpp hx (le_of_not_lt hlt)
        · exact hA j hj

theorem isHeap_nil : IsHeap ([] : List (QueueElement E T)) :=
  fun _ => heapLe_oob _ (Nat.zero_le _)

theorem child_ge {j pos : Nat} (hpj : parentIdx j = pos) (hne : j ≠ pos) :
    2 * pos + 1 ≤ j := by
  unfold parentIdx at hpj
  omega

theorem child_bounds {j pos : Nat} (hpj : parentIdx j = pos)
    (hne : j ≠ pos) : 2 * pos + 1 ≤ j ∧ j ≤ 2 * pos + 2 := by
  unfold parentIdx at hpj
  omega

/-- `heapPush` preserves the heap invariant. -/
theorem heapPush_isHeap (l : List (QueueElement E T))
    (x : QueueElement E T) (h : IsHeap l) : IsHeap (heapPush l x) := by
  unfold heapPush sift_up
  apply siftUpF_isHeap
  · exact le_refl _
  · simp
  · intro j hj a b ha hb
    have hjb := lt_of_get?_eq_some hb
    rw [List.length_append, List.length_singleton] at hjb
    have hjlt : j < l.length := by
      rcases Nat.lt_succ_iff_lt_or_eq.mp hjb with h' | h'
      · exact h'
      · exact absurd h' hj
    rw [List.get?_append hjlt] at hb
    rw [List.get?_append (lt_of_le_of_lt (parentIdx_le j) hjlt)] at ha
    exact h j a b ha hb
  · intro c hpc hcne
    apply heapLe_oob
    have := child_ge hpc hcne
    rw [List.length_append, List.length_singleton]
    omega

/-- Invariant transported across one descent swap of
`sift_down_to_bottom`: `c` is a child of `pos` holding the
smaller-or-equal (hence chosen) child value. -/
theorem sdtb_swap_inv (l : List (QueueElement E T)) (pos c : Nat)
    (hc : c < l.length) (hpc : parentIdx c = pos) (hcpos : c ≠ pos)
    (hother : ∀ o, parentIdx o = pos → o ≠ pos → o ≠ c → heapLe l c o)
    (hD1 : ∀ j, j ≠ pos → parentIdx j ≠ pos → heapLe l (parentIdx j) j)
    (hD2 : ∀ d, parentIdx d = pos → d ≠ pos → pos ≠ 0 →
      heapLe l (parentIdx pos) d) :
    (∀ j, j ≠ c → parentIdx j ≠ c →
      heapLe (lswap l pos c) (parentIdx j) j)
    ∧ (∀ d, parentIdx d = c → d ≠ c → c ≠ 0 →
      heapLe (lswap l pos c) (parentIdx c) d) := by
  have hc0 : c ≠ 0 := by
    intro h0
    apply hcpos
    rw [h0] at hpc ⊢
    exact hpc
  have hposc : pos < c := hpc ▸ parentIdx_lt c hc0
  have hpos : pos < l.length := lt_trans hposc hc
  obtain ⟨y, hy⟩ := get?_some_of_lt hpos
  obtain ⟨m, hm⟩ := get?_some_of_lt hc
  have hposne : pos ≠ c := Ne.symm hcpos
  have hm' : (lswap l pos c).get? pos = some m := lswap_get?_left hposne hy hm
  have hy' : (lswap l pos c).get? c = some y := lswap_get?_right hposne hy hm
  constructor
  · intro j hjc hpjc
    by_cases hjpos : j = pos
    · subst hjpos
      by_cases hpp : parentIdx j = j
      · rw [hpp]
        exact heapLe_refl _ _
      · have hj0 : j ≠ 0 := by
          intro h0
          exact hpp (by rw [h0]; rfl)
        intro a b ha hb
        rw [hm'] at hb
        cases hb
        have hpjne : parentIdx j ≠ c :=
          Nat.ne_of_lt (lt_trans (parentIdx_lt j hj0) hposc)
        rw [lswap_get?_other hpp hpjne] at ha
        exact hD2 c hpc hcpos hj0 a m ha hm
    · by_cases hpj : parentIdx j = pos
      · intro a b ha hb
        rw [hpj, hm'] at ha
        cases ha
        rw [lswap_get?_other hjpos hjc] at hb
        exact hother j hpj hjpos hjc m b hm hb
      · intro a b ha hb
        rw [lswap_get?_other hpj hpjc] at ha
        rw [lswap_get?_other hjpos hjc] at hb
        exact hD1 j hjpos hpj a b ha hb
  · intro d hpd hdc _
    intro a b ha hb
    rw [hpc, hm'] at ha
    cases ha
    have hdgt : c < d := hpd ▸ parentIdx_lt d (by
      intro h0
      apply hdc
      rw [h0] at hpd ⊢
      exact hpd)
    have hdpos : d ≠ pos := Nat.ne_of_gt (lt_trans hposc hdgt)
    rw [lswap_get?_other hdpos (Ne.symm (Nat.ne_of_lt hdgt))] at hb
    exact hD1 d hdpos (by rw [hpd]; exact hcpos) m b
      (by rw [hpd]; exact hm) hb

/-- The descent loop of `sift_down_to_bottom`: starting from a state
whose parent bounds hold except at pairs involving `pos`, and whose
children of `pos` are bounded by `pos`'s parent, it ends at a leaf with
every parent bound holding except possibly at that leaf. -/
theorem sdtbF_spec :
    ∀ (fuel : Nat) (l : List (QueueElement E T)) (pos : Nat),
      pos < l.length → l.length - pos ≤ fuel →
      (∀ j, j ≠ pos → parentIdx j ≠ pos → heapLe l (parentIdx j) j) →
      (∀ d, parentIdx d = pos → d ≠ pos → pos ≠ 0 →
        heapLe l (parentIdx pos) d) →
      (sdtbF fuel l pos).2.length = l.length
      ∧ (sdtbF fuel l pos).1 < l.length
      ∧ (∀ j, j ≠ (sdtbF fuel l pos).1 →
          heapLe (sdtbF fuel l pos).2 (parentIdx j) j)
      ∧ (sdtbF fuel l pos).2.get? (2 * (sdtbF fuel l pos).1 + 1) = none := by
  intro fuel
  induction fuel with
  | zero =>
    intro l pos hpos hfuel _ _
    exact absurd hpos (by omega)
  | succ fuel ih =>
    intro l pos hpos hfuel hD1 hD2
    have key : ∀ c, c < l.length → parentIdx c = pos → c ≠ pos →
        (∀ o, parentIdx o = pos → o ≠ pos → o ≠ c → heapLe l c o) →
        (sdtbF fuel (lswap l pos c) c).2.length = l.length
        ∧ (sdtbF fuel (lswap l pos c) c).1 < l.length
        ∧ (∀ j, j ≠ (sdtbF fuel (lswap l pos c) c).1 →
            heapLe (sdtbF fuel (lswap l pos c) c).2 (parentIdx j) j)
        ∧ (sdtbF fuel (lswap l pos c) c).2.get?
            (2 * (sdtbF fuel (lswap l pos c) c).1 + 1) = none := by
      intro c hc hpc hcpos hother
      obtain ⟨hD1', hD2'⟩ := sdtb_swap_inv l pos c hc hpc hcpos hother
        hD1 hD2
      have hposc : pos < c := by
        have hc0 : c ≠ 0 := by
          intro h0
          apply hcpos
          rw [h0] at hpc ⊢
          exact hpc
        exact hpc ▸ parentIdx_lt c hc0
      have := ih (lswap l pos c) c
        (by rw [lswap_length]; exact hc)
        (by rw [lswap_length]; omega)
        hD1' hD2'
      rw [lswap_length] at this
      exact this
    cases hcl : l.get? (2 * pos + 1) with
    | none =>
      have heq : sdtbF (fuel + 1) l pos = (pos, l) := by
        rw [sdtbF, hcl]
      rw [heq]
      refine ⟨rfl, hpos, ?_, hcl⟩
      intro j hj
      by_cases hpj : parentIdx j = pos
      · apply heapLe_oob
        have := child_ge hpj hj
        have hlen := List.get?_eq_none.mp hcl
        show l.length ≤ j
        omega
      · exact hD1 j hj hpj
    | some cL =>
      cases hcr : l.get? (2 * pos + 2) with
      | none =>
        have heq : sdtbF (fuel + 1) l pos =
            sdtbF fuel (lswap l pos (2 * pos + 1)) (2 * pos + 1) := by
          rw [sdtbF, hcl, hcr]
        rw [heq]
        apply key
        · exact lt_of_get?_eq_some hcl
        · unfold parentIdx; omega
        · omega
        · intro o hpo hone hoc
          obtain ⟨h1, h2⟩ := child_bounds hpo hone
          have ho : o = 2 * pos + 2 := by omega
          subst ho
          exact heapLe_oob _ (List.get?_eq_none.mp hcr)
      | some cR =>
        by_cases hlt : cL.execute_time < cR.execute_time
        · have heq : sdtbF (fuel + 1) l pos =
              sdtbF fuel (lswap l pos (2 * pos + 1)) (2 * pos + 1) := by
            rw [sdtbF, hcl, hcr]
            dsimp only
            rw [if_pos hlt]
          rw [heq]
          apply key
          · exact lt_of_get?_eq_some hcl
          · unfold parentIdx; omega
          · omega
          · intro o hpo hone hoc
            obtain ⟨h1, h2⟩ := child_bounds hpo hone
            have ho : o = 2 * pos + 2 := by omega
            subst ho
            exact heapLe_of_get? hcl hcr (le_of_lt hlt)
        · have heq : sdtbF (fuel + 1) l pos =
              sdtbF fuel (lswap l pos (2 * pos + 2)) (2 * pos + 2) := by
            rw [sdtbF, hcl, hcr]
            dsimp only
            rw [if_neg hlt]
          rw [heq]
          apply key
          · exact lt_of_get?_eq_some hcr
          · unfold parentIdx; omega
          · omega
          · intro o hpo hone hoc
            obtain ⟨h1, h2⟩ := child_bounds hpo hone
            have ho : o = 2 * pos + 1 := by omega
            subst ho
            exact heapLe_of_get? hcr hcl (le_of_not_lt hlt)

theorem siftUpF_length :
    ∀ (fuel : Nat) (l : List (QueueElement E T)) (pos : Nat),
      (siftUpF fuel l pos).length = l.length := by
  intro fuel
  induction fuel with
  | zero => intro l pos; rfl
  | succ fuel ih =>
    intro l pos
    rw [siftUpF]
    by_cases h0 : pos = 0
    · rw [if_pos h0]
    · rw [if_neg h0]
      cases hp : l.get? (parentIdx pos) with
      | none => rfl
      | some p =>
        cases hx : l.get? pos with
        | none => rfl
        | some x =>
          show (if x.execute_time < p.execute_time then
            siftUpF fuel (lswap l (parentIdx pos) pos) (parentIdx pos)
            else l).length = l.length
          by_cases hlt : x.execute_time < p.execute_time
          · rw [if_pos hlt, ih, lswap_length]
          · rw [if_neg hlt]

theorem sdtbF_length :
    ∀ (fuel : Nat) (l : List (QueueElement E T)) (pos : Nat),
      (sdtbF fuel l pos).2.length = l.length := by
  intro fuel
  induction fuel with
  | zero => intro l pos; rfl
  | succ fuel ih =>
    intro l pos
    rw [sdtbF]
    cases hcl : l.get? (2 * pos + 1) with
    | none => rfl
    | some cL =>
      cases hcr : l.get? (2 * pos + 2) with
      | none =>
        show (sdtbF fuel (lswap l pos (2 * pos + 1)) (2 * pos + 1)).2.length
          = l.length
        rw [ih, lswap_length]
      | some cR =>
        show (sdtbF fuel (lswap l pos (if cL.execute_time < cR.execute_time
          then 2 * pos + 1 else 2 * pos + 2))
          (if cL.execute_time < cR.execute_time then 2 * pos + 1
           else 2 * pos + 2)).2.length = l.length
        rw [ih, lswap_length]

theorem heapPopFix_length (l : List (QueueElement E T)) :
    (heapPopFix l).length = l.length := by
  unfold heapPopFix sift_up
  rw [siftUpF_length, sdtbF_length]

/-- `sift_down_to_bottom(0)` restores the heap invariant after the
root has been replaced by an arbitrary element. -/
theorem heapPopFix_isHeap (l : List (QueueElement E T))
    (hl : 0 < l.length)
    (hD1 : ∀ j, j ≠ 0 → parentIdx j ≠ 0 → heapLe l (parentIdx j) j) :
    IsHeap (heapPopFix l) := by
  unfold heapPopFix
  obtain ⟨hlen, hpos, hA, hleaf⟩ := sdtbF_spec l.length l 0 hl
    (by omega) hD1 (fun _ _ _ h0 => absurd rfl h0)
  unfold sift_up
  apply siftUpF_isHeap
  · exact le_refl _
  · rw [hlen]; exact hpos
  · exact hA
  · intro c hpc hcne
    apply heapLe_oob
    have h1 := child_ge hpc hcne
    have h2 := List.get?_eq_none.mp hleaf
    omega

/-- `heapPop` preserves the heap invariant. -/
theorem heapPop_isHeap {l : List (QueueElement E T)}
    {qe : QueueElement E T} {rest : List (QueueElement E T)}
    (h : IsHeap l) (hp : heapPop l = some (qe, rest)) : IsHeap rest := by
  unfold heapPop at hp
  cases l with
  | nil => cases hp
  | cons x xs =>
    cases xs with
    | nil =>
      cases hp
      exact isHeap_nil
    | cons y ys =>
      rw [List.getLast?_cons_cons, List.dropLast_cons₂] at hp
      cases hgl : (y :: ys).getLast? with
      | none => rw [hgl] at hp; cases hp
      | some item =>
        rw [hgl] at hp
        injection hp with hp1
        injection hp1 with hq hr
        subst hr
        apply heapPopFix_isHeap
        · simp
        · intro j hj hpj a b ha hb
          have hjlt : j < (x :: y :: ys).length - 1 := by
            have h1 := lt_of_get?_eq_some hb
            simp only [List.length_cons] at h1 ⊢
            have h2 : (y :: ys).dropLast.length = ys.length := by simp
            omega
          have htrans : ∀ k, k ≠ 0 → k < (x :: y :: ys).length - 1 →
              (item :: (y :: ys).dropLast).get? k
                = (x :: y :: ys).get? k := by
            intro k hk hklt
            cases k with
            | zero => exact absurd rfl hk
            | succ k =>
              show (y :: ys).dropLast.get? k = (y :: ys).get? k
              rw [List.dropLast_eq_take, List.get?_take]
              simp only [List.length_cons] at hklt
              simp only [List.length_cons]
              omega
          rw [htrans j hj hjlt] at hb
          rw [htrans (parentIdx j) hpj
            (lt_of_le_of_lt (parentIdx_le j) hjlt)] at ha
          exact h j a b ha hb

/-- `heapPop` returns the root and shrinks the array by one. -/
theorem heapPop_facts {l : List (QueueElement E T)}
    {qe : QueueElement E T} {rest : List (QueueElement E T)}
    (hp : heapPop l = some (qe, rest)) :
    l.get? 0 = some qe ∧ rest.length + 1 = l.length := by
  unfold heapPop at hp
  cases l with
  | nil => cases hp
  | cons x xs =>
    cases xs with
    | nil =>
      cases hp
      exact ⟨rfl, rfl⟩
    | cons y ys =>
      rw [List.getLast?_cons_cons, List.dropLast_cons₂] at hp
      cases hgl : (y :: ys).getLast? with
      | none => rw [hgl] at hp; cases hp
      | some item =>
        rw [hgl] at hp
        injection hp with hp1
        injection hp1 with hq hr
        subst hq
        subst hr
        refine ⟨rfl, ?_⟩
        rw [heapPopFix_length]
        simp

/-- `heapPop` fails exactly on the empty array. -/
theorem heapPop_none_iff (l : List (QueueElement E T)) :
    heapPop l = none ↔ l = [] := by
  unfold heapPop
  cases l with
  | nil => simp
  | cons x xs =>
    cases xs with
    | nil => simp
    | cons y ys =>
      rw [List.getLast?_cons_cons, List.dropLast_cons₂]
      cases hgl : (y :: ys).getLast? with
      | none =>
        exfalso
        have : (y :: ys) ≠ [] := by simp
        rw [← List.getLast?_isSome] at this
        rw [hgl] at this
        cases this
      | some item => simp

/-- Under the heap invariant the root's time is minimal. -/
theorem isHeap_le_root (l : List (QueueElement E T)) (hh : IsHeap l)
    (i : Nat) :
    ∀ (x r : QueueElement E T), l.get? 0 = some r → l.get? i = some x →
      r.execute_time ≤ x.execute_time := by
  induction i using Nat.strong_induction_on with
  | _ i ih =>
    intro x r h0 hi
    rcases Nat.eq_zero_or_pos i with rfl | hpos
    · rw [h0] at hi
      cases hi
      exact le_refl _
    · have hil : i < l.length := lt_of_get?_eq_some hi
      obtain ⟨p, hpar⟩ := get?_some_of_lt
        (lt_of_le_of_lt (parentIdx_le i) hil)
      exact le_trans
        (ih (parentIdx i) (parentIdx_lt i (Nat.pos_iff_ne_zero.mp hpos))
          p r h0 hpar)
        (hh i p x hpar hi)

/-- Under the heap invariant the root's time bounds every element. -/
theorem isHeap_root_min (l : List (QueueElement E T)) (hh : IsHeap l)
    (r : QueueElement E T) (h0 : l.get? 0 = some r) :
    ∀ x ∈ l, r.execute_time ≤ x.execute_time := by
  intro x hx
  obtain ⟨i, hi⟩ := List.mem_iff_get?.mp hx
  exact isHeap_le_root l hh i x r h0 hi

end HeapLemmas

/-!
### Entity store lemmas
-/

section EntityStore

variable {Code : Type} [DecidableEq Code] {deno : Code → Type}

/-- After a map insert, lookup at the inserted key finds the new value. -/
theorem lookup_insertContent_self (l : List (DynEntry Code deno))
    (ty : Code) (k : Nat) (v : deno ty) :
    lookupContent (insertContent l ty k v).1 ty k = some v := by
  induction l with
  | nil => simp [insertContent, lookupContent]
  | cons e rest ih =>
    by_cases h : e.ty = ty ∧ e.uid = k
    · simp [insertContent, h, lookupContent]
    · simp only [insertContent, dif_neg h]
      simpa [lookupContent, h] using ih

/-- A map insert leaves lookups at every other key unchanged. -/
theorem lookup_insertContent_ne (l : List (DynEntry Code deno))
    (ty : Code) (k : Nat) (v : deno ty) (ty' : Code) (k' : Nat)
    (hne : ¬ (ty = ty' ∧ k = k')) :
    lookupContent (insertContent l ty k v).1 ty' k' =
      lookupContent l ty' k' := by
  induction l with
  | nil => simp [insertContent, lookupContent, hne]
  | cons e rest ih =>
    by_cases h : e.ty = ty ∧ e.uid = k
    · simp only [insertContent, dif_pos h, lookupContent]
      rw [dif_neg hne, dif_neg]
      rw [h.1, h.2]
      exact hne
    · simp only [insertContent, dif_neg h, lookupContent]
      by_cases h' : e.ty = ty' ∧ e.uid = k'
      · rw [dif_pos h', dif_pos h']
      · rw [dif_neg h', dif_neg h']
        exact ih

/-- Lookup succeeds exactly on the live keys (the `contains_key`
predicate of `new_uid`'s rejection sampling). -/
theorem lookup_isSome_eq_any (l : List (DynEntry Code deno))
    (ty : Code) (k : Nat) :
    (lookupContent l ty k).isSome =
      (l.any fun e => decide (e.ty = ty) && decide (e.uid = k)) := by
  induction l with
  | nil => rfl
  | cons e rest ih =>
    by_cases h : e.ty = ty ∧ e.uid = k
    · simp [lookupContent, h]
    · have hb : (decide (e.ty = ty) && decide (e.uid = k)) = false := by
        rcases not_and_or.mp h with h1 | h1 <;> simp [h1]
      simp only [lookupContent, dif_neg h, List.any_cons, hb, Bool.false_or]
      exact ih

/-- `new_uid` returns a key that is not live, without touching the map
content or the PRNG stream (only the cursor advances). -/
theorem new_uid_spec (fuel : Nat) (h : EntityHeap Code deno) (ty : Code)
    (id : Nat) (h' : EntityHeap Code deno)
    (hu : EntityHeap.new_uid fuel h ty = some (id, h')) :
    h.contains_key ty id = false ∧ h'.content = h.content
      ∧ h'.key_seed = h.key_seed := by
  induction fuel generalizing h with
  | zero => exact absurd hu (by simp [EntityHeap.new_uid])
  | succ fuel ih =>
    rw [EntityHeap.new_uid] at hu
    by_cases hc : h.contains_key ty (h.key_seed h.seed_pos) = true
    · rw [if_pos hc] at hu
      have := ih ⟨h.content, h.key_seed, h.seed_pos + 1⟩ hu
      exact ⟨this.1, this.2⟩
    · rw [if_neg hc] at hu
      cases hu
      exact ⟨by simpa using hc, rfl, rfl⟩

/-- What `add` does: the returned UID was not live before, and the new
content is the old content with the value inserted at the fresh key. -/
theorem add_spec (fuel : Nat) (h : EntityHeap Code deno) (ty : Code)
    (v : deno ty) (id : Nat) (h' : EntityHeap Code deno)
    (ha : EntityHeap.add fuel h ty v = some (id, h')) :
    h.contains_key ty id = false
      ∧ h'.content = (insertContent h.content ty id v).1 := by
  rw [EntityHeap.add] at ha
  cases hu : EntityHeap.new_uid fuel h ty with
  | none => rw [hu] at ha; cases ha
  | some p =>
    obtain ⟨id0, h0⟩ := p
    rw [hu] at ha
    obtain ⟨hfresh, hcont, -⟩ := new_uid_spec fuel h ty id0 h0 hu
    cases ha
    exact ⟨hfresh, by rw [hcont]⟩

/-- `contains_key` restated through lookup. -/
theorem contains_key_eq_lookup_isSome (h : EntityHeap Code deno)
    (ty : Code) (k : Nat) :
    h.contains_key ty k = (h.get ty k).isSome :=
  (lookup_isSome_eq_any h.content ty k).symm

/-- Inserting at one key preserves the liveness of every key: the
inserted key becomes live and every other key's lookup is unchanged. -/
theorem contains_key_mono_insert (l : List (DynEntry Code deno))
    (ty : Code) (k : Nat) (v : deno ty) (ty' : Code) (k' : Nat)
    (hlive : (lookupContent l ty' k').isSome = true) :
    (lookupContent (insertContent l ty k v).1 ty' k').isSome = true := by
  by_cases hk : ty = ty' ∧ k = k'
  · obtain ⟨rfl, rfl⟩ := hk
    rw [lookup_insertContent_self]
    rfl
  · rw [lookup_insertContent_ne l ty k v ty' k' hk]
    exact hlive

/-- C6: the entity store partitions its key space per static type:
after a successful `add` of `v` under type `ty` returning `uid`,
`get ty uid` yields `v` while `get ty'` for any distinct type `ty'` is
unaffected at every UID; and `get` of any key that is not live (never
added, or since removed) yields `none`. -/
theorem c6_entity_store_partition {Code : Type} [DecidableEq Code]
    {deno : Code → Type} :
    (∀ (fuel : Nat) (h : EntityHeap Code deno) (ty : Code) (v : deno ty)
        (id : Nat) (h' : EntityHeap Code deno),
        EntityHeap.add fuel h ty v = some (id, h') →
          h'.get ty id = some v
          ∧ ∀ ty' : Code, ty' ≠ ty → ∀ k : Nat, h'.get ty' k = h.get ty' k)
    ∧ (∀ (h : EntityHeap Code deno) (ty : Code) (k : Nat),
        h.contains_key ty k = false → h.get ty k = none) := by
  constructor
  · intro fuel h ty v id h' ha
    obtain ⟨-, hcont⟩ := add_spec fuel h ty v id h' ha
    constructor
    · show lookupContent h'.content ty id = some v
      rw [hcont]
      exact lookup_insertContent_self h.content ty id v
    · intro ty' hne k
      show lookupContent h'.content ty' k = lookupContent h.content ty' k
      rw [hcont]
      exact lookup_insertContent_ne h.content ty id v ty' k
        (fun hc => hne hc.1.symm)
  · intro h ty k hc
    rw [contains_key_eq_lookup_isSome] at hc
    exact Option.not_isSome_iff_eq_none.mp (by simp [hc])

/-- Witness for C6: on the concrete store whose PRNG stream is
constantly 7, adding `100 : Nat` (type code `true`) returns UID 7; the
resulting store answers `get true 7 = some 100`, leaves the `false`
(Bool-typed) key space untouched, and a never-added key reads `none`. -/
theorem c6_entity_store_partition_witness :
    (⟨[⟨true, 7, (show bdeno true from (100 : Nat))⟩], fun _ => 7, 1⟩ :
        EntityHeap Bool bdeno).get true 7 = some (show bdeno true from
          (100 : Nat))
    ∧ (⟨[⟨true, 7, (show bdeno true from (100 : Nat))⟩], fun _ => 7, 1⟩ :
        EntityHeap Bool bdeno).get false 9 = regressHeap.get false 9
    ∧ regressHeap.get true 3 = none := by
  have h := @c6_entity_store_partition Bool _ bdeno
  obtain ⟨hv, hother⟩ := h.1 1 regressHeap true
    (show bdeno true from (100 : Nat)) 7
    ⟨[⟨true, 7, (show bdeno true from (100 : Nat))⟩], fun _ => 7, 1⟩ rfl
  exact ⟨hv, hother false (by simp) 9, h.2 regressHeap true 3 rfl⟩

/-- C7 (counterexample): UIDs are not pairwise distinct over the
store's whole history once a `remove` intervenes: with the PRNG stream
constantly 7, `add` returns 7, `remove` frees it, and the next `add`
returns 7 again (`reuseTrace` collects the two returned UIDs). -/
theorem c7_uid_reuse_counterexample :
    reuseTrace = some (7, 7) :=
  rfl

/-- Sequential `add`s (no intervening removes) return pairwise distinct
UIDs: each one is fresh at its call time, and liveness of earlier keys
is preserved by later `add`s. -/
theorem addAll_spec (vs : List (deno ty)) :
    ∀ (fuel : Nat) (h : EntityHeap Code deno) (ids : List Nat)
      (h' : EntityHeap Code deno),
      addAll fuel ty vs h = some (ids, h') →
        ids.Nodup
        ∧ (∀ i ∈ ids, h.contains_key ty i = false)
        ∧ (∀ ty'' k, h.contains_key ty'' k = true →
            h'.contains_key ty'' k = true) := by
  induction vs with
  | nil =>
    intro fuel h ids h' ha
    rw [addAll] at ha
    cases ha
    exact ⟨List.nodup_nil, by simp, fun _ _ hk => hk⟩
  | cons v vs ih =>
    intro fuel h ids h' ha
    rw [addAll] at ha
    dsimp only at ha
    cases hadd : EntityHeap.add fuel h ty v with
    | none => rw [hadd] at ha; cases ha
    | some p =>
      obtain ⟨id, h1⟩ := p
      rw [hadd] at ha
      dsimp only at ha
      cases hrest : addAll fuel ty vs h1 with
      | none => rw [hrest] at ha; cases ha
      | some q =>
        obtain ⟨ids1, h2⟩ := q
        rw [hrest] at ha
        obtain ⟨hfresh, hcont⟩ := add_spec fuel h ty v id h1 hadd
        obtain ⟨hnodup, hfreshs, hmono⟩ := ih fuel h1 ids1 h2 hrest
        cases ha
        have hlive1 : h1.contains_key ty id = true := by
          rw [contains_key_eq_lookup_isSome]
          show (lookupContent h1.content ty id).isSome = true
          rw [hcont, lookup_insertContent_self]
          rfl
        have hmono1 : ∀ ty'' k, h.contains_key ty'' k = true →
            h1.contains_key ty'' k = true := by
          intro ty'' k hk
          rw [contains_key_eq_lookup_isSome] at hk ⊢
          show (lookupContent h1.content ty'' k).isSome = true
          rw [hcont]
          exact contains_key_mono_insert h.content ty id v ty'' k hk
        refine ⟨List.nodup_cons.mpr ⟨fun hmem => ?_, hnodup⟩,
          fun i hi => ?_, fun ty'' k hk => hmono ty'' k (hmono1 ty'' k hk)⟩
        · exact absurd hlive1 (by simp [hfreshs id hmem])
        · rcases List.mem_cons.mp hi with rfl | hi1
          · exact hfresh
          · by_contra hct
            have : h.contains_key ty i = true := by
              cases hcc : h.contains_key ty i with
              | false => exact absurd hcc hct
              | true => rfl
            exact absurd (hmono1 ty i this) (by simp [hfreshs i hi1])

/-- C7 (amended): the UIDs returned by successive `add::<V>` calls with
no intervening removes are pairwise distinct — each freshly generated
UID is regenerated only on collision with a *live* key, so after a
`remove` a UID can be returned again (see the counterexample). -/
theorem c7_add_distinct_amended {Code : Type} [DecidableEq Code]
    {deno : Code → Type} (ty : Code) (vs : List (deno ty)) (fuel : Nat)
    (h : EntityHeap Code deno) (ids : List Nat)
    (h' : EntityHeap Code deno)
    (ha : addAll fuel ty vs h = some (ids, h')) :
    ids.Nodup :=
  (addAll_spec vs fuel h ids h' ha).1

/-- Witness for C7 (amended): three `add`s on the store whose PRNG
stream is `0, 1, 2, ...` return the UIDs `[0, 1, 2]`, which are
pairwise distinct. -/
theorem c7_add_distinct_amended_witness :
    ([0, 1, 2] : List Nat).Nodup :=
  c7_add_distinct_amended true
    [show bdeno true from (100 : Nat), show bdeno true from (200 : Nat),
     show bdeno true from (300 : Nat)] 1 countingHeap [0, 1, 2]
    ⟨[⟨true, 0, (show bdeno true from (100 : Nat))⟩,
      ⟨true, 1, (show bdeno true from (200 : Nat))⟩,
      ⟨true, 2, (show bdeno true from (300 : Nat))⟩], fun n => n, 3⟩ (by rfl)

/-- Removing right after inserting returns the inserted value. -/
theorem remove_insertContent_self (l : List (DynEntry Code deno))
    (ty : Code) (k : Nat) (v : deno ty) :
    (removeContent (insertContent l ty k v).1 ty k).2 = some v := by
  induction l with
  | nil => simp [insertContent, removeContent]
  | cons e rest ih =>
    by_cases h : e.ty = ty ∧ e.uid = k
    · simp [insertContent, h, removeContent]
    · simp only [insertContent, dif_neg h, removeContent]
      exact ih

/-- Inserting at a key that is not bound appends the entry at the end
of the map's entry list and returns no prior value. -/
theorem insertContent_fresh (l : List (DynEntry Code deno)) (ty : Code)
    (k : Nat) (v : deno ty) (hnone : lookupContent l ty k = none) :
    insertContent l ty k v = (l ++ [⟨ty, k, v⟩], none) := by
  induction l with
  | nil => simp [insertContent]
  | cons e rest ih =>
    by_cases h : e.ty = ty ∧ e.uid = k
    · rw [lookupContent, dif_pos h] at hnone
      cases hnone
    · rw [lookupContent, dif_neg h] at hnone
      rw [insertContent, dif_neg h, ih hnone]
      rfl

/-- Removing a freshly appended entry restores the original map. -/
theorem removeContent_append_fresh (l : List (DynEntry Code deno))
    (ty : Code) (k : Nat) (v : deno ty)
    (hnone : lookupContent l ty k = none) :
    removeContent (l ++ [⟨ty, k, v⟩]) ty k = (l, some v) := by
  induction l with
  | nil => simp [removeContent]
  | cons e rest ih =>
    by_cases h : e.ty = ty ∧ e.uid = k
    · rw [lookupContent, dif_pos h] at hnone
      cases hnone
    · rw [lookupContent, dif_neg h] at hnone
      rw [List.cons_append, removeContent, dif_neg h, ih hnone]

/-- C8 (counterexample): when the key is already occupied the round
trip does not return the store to its prior state for that key:
with `10` stored at `(true, 1)`, `insert (true, 1) 20` then
`remove (true, 1)` yields the new value `20`, and the key ends unbound
(`none`) instead of rebound to the prior `10`. -/
theorem c8_round_trip_counterexample :
    ((occupiedHeap.insert true 1 (show bdeno true from (20 : Nat))).2.remove
        true 1).1 = some (show bdeno true from (20 : Nat))
    ∧ occupiedHeap.get true 1 = some (show bdeno true from (10 : Nat))
    ∧ (((occupiedHeap.insert true 1 (show bdeno true from
        (20 : Nat))).2.remove true 1).2.get true 1) = none :=
  ⟨rfl, rfl, rfl⟩

/-- C8 (amended): `insert<V>(k, v)` then `remove<V>(k)` always yields
`Some(v)`; when the key was previously unbound the store afterwards is
exactly the store before the insert (for occupied keys the prior value
is discarded by `insert`, so the key ends unbound — see the
counterexample). -/
theorem c8_round_trip_amended {Code : Type} [DecidableEq Code]
    {deno : Code → Type} (h : EntityHeap Code deno) (ty : Code) (k : Nat)
    (v : deno ty) :
    ((h.insert ty k v).2.remove ty k).1 = some v
    ∧ (h.get ty k = none → ((h.insert ty k v).2.remove ty k).2 = h) := by
  constructor
  · exact remove_insertContent_self h.content ty k v
  · intro hget
    show (⟨(removeContent (insertContent h.content ty k v).1 ty k).1,
      h.key_seed, h.seed_pos⟩ : EntityHeap Code deno) = h
    rw [insertContent_fresh h.content ty k v hget,
      removeContent_append_fresh h.content ty k v hget]

/-- Witness for C8 (amended) on the empty store: inserting `100` at
the unbound key `(true, 5)` and removing it yields `some 100` and
returns the store to its original state. -/
theorem c8_round_trip_amended_witness :
    ((regressHeap.insert true 5 (show bdeno true from (100 : Nat))).2.remove
        true 5).1 = some (show bdeno true from (100 : Nat))
    ∧ ((regressHeap.insert true 5 (show bdeno true from
        (100 : Nat))).2.remove true 5).2 = regressHeap :=
  ⟨(c8_round_trip_amended regressHeap true 5
      (show bdeno true from (100 : Nat))).1,
   (c8_round_trip_amended regressHeap true 5
      (show bdeno true from (100 : Nat))).2 rfl⟩

end EntityStore

/-!
### Event queue claims needing the heap invariant
-/

/-- C1 (amended): every `invoke_next` call on a non-empty queue
(satisfying the heap representation invariant) dispatches exactly one
event — it invokes exactly the popped callback, removes exactly one
queue element, and the dispatched event's execute time is `≤` that of
every queued event; and for the insertion order `A@5, B@3, C@3, D@10`
four successive calls dispatch `B, C, A, D` (labels `1, 2, 0, 3`),
leaving the queue empty with `now = 10`. -/
theorem c1_invoke_next_dispatch_order :
    (∀ (G E T : Type) [LinearOrder T] (c : SimCtx G E T) (g : G),
      IsHeap (c.getQ g).queue →
      ∀ (qe : QueueElement E T) (rest : List (QueueElement E T)),
        heapPop (c.getQ g).queue = some (qe, rest) →
        invoke_next c g = c.invoke qe.call_back
            (c.setQ g ⟨if (c.getQ g).now < qe.execute_time
              then qe.execute_time else (c.getQ g).now, rest⟩)
        ∧ rest.length + 1 = (c.getQ g).queue.length
        ∧ ∀ r ∈ (c.getQ g).queue, qe.execute_time ≤ r.execute_time)
    ∧ (invoke_next logCtx (invoke_next logCtx (invoke_next logCtx
        (invoke_next logCtx exampleGame)))).log = [1, 2, 0, 3]
    ∧ (invoke_next logCtx (invoke_next logCtx (invoke_next logCtx
        (invoke_next logCtx exampleGame)))).queue.queue = []
    ∧ (invoke_next logCtx (invoke_next logCtx (invoke_next logCtx
        (invoke_next logCtx exampleGame)))).queue.now = 10 := by
  refine ⟨?_, rfl, rfl, rfl⟩
  intro G E T _ c g hh qe rest hpop
  obtain ⟨hroot, hlen⟩ := heapPop_facts hpop
  refine ⟨?_, hlen, isHeap_root_min (c.getQ g).queue hh qe hroot⟩
  unfold invoke_next
  rw [hpop]

/-- Witness for C1 (amended)'s universal clause at the ordering
scenario's initial state: the first call invokes exactly `B` (label 1,
time 3), removes one of the four elements, and 3 is `≤` every queued
execute time. -/
theorem c1_invoke_next_dispatch_order_witness :
    invoke_next logCtx exampleGame = logCtx.invoke 1 (logCtx.setQ
        exampleGame ⟨if (logCtx.getQ exampleGame).now < (3 : Int) then 3
          else (logCtx.getQ exampleGame).now,
          [⟨3, 2⟩, ⟨5, 0⟩, ⟨10, 3⟩]⟩)
    ∧ ([(⟨3, 2⟩ : QueueElement Nat Int), ⟨5, 0⟩, ⟨10, 3⟩].length + 1
        = (logCtx.getQ exampleGame).queue.length)
    ∧ ∀ r ∈ (logCtx.getQ exampleGame).queue,
        (3 : Int) ≤ r.execute_time :=
  c1_invoke_next_dispatch_order.1 LogGame Nat Int logCtx exampleGame
    (heapPush_isHeap _ _ (heapPush_isHeap _ _ (heapPush_isHeap _ _
      (heapPush_isHeap _ _ isHeap_nil)))) ⟨3, 1⟩
    [⟨3, 2⟩, ⟨5, 0⟩, ⟨10, 3⟩] rfl

/-- C3: for every queue state (satisfying the binary-heap
representation invariant, which `heapPush`/`heapPop` preserve) and
every time `u`, `progress_time u` sets `now` to `u` when the queue is
empty, and otherwise to `min u s` where `s` — the peeked soonest time —
is the earliest execute time of any queued event; it returns `true` iff
`s ≤ u` (and `false` on the empty queue). -/
theorem c3_progress_time_spec {E T : Type} [LinearOrder T]
    (q : EventQueue E T) (u : T) (hh : IsHeap q.queue) :
    (q.queue = [] → (q.progress_time u).1.now = u
      ∧ (q.progress_time u).2 = false)
    ∧ (∀ s, q.soonest = some s →
        (q.progress_time u).1.now = min u s
        ∧ ((q.progress_time u).2 = true ↔ s ≤ u)
        ∧ (∀ r ∈ q.queue, s ≤ r.execute_time)) := by
  constructor
  · intro hnil
    constructor
    · show (if q.has_event_by u then _ else u) = u
      rw [if_neg]
      unfold EventQueue.has_event_by EventQueue.soonest
      rw [hnil]
      simp
    · show q.has_event_by u = false
      unfold EventQueue.has_event_by EventQueue.soonest
      rw [hnil]
      rfl
  · intro s hs
    obtain ⟨qe, hq, rfl⟩ : ∃ qe, q.queue.head? = some qe
        ∧ qe.execute_time = s := by
      unfold EventQueue.soonest at hs
      cases hq : q.queue.head? with
      | none => rw [hq] at hs; cases hs
      | some qe =>
        rw [hq] at hs
        refine ⟨qe, rfl, ?_⟩
        simpa using hs
    have hget0 : q.queue.get? 0 = some qe := by
      cases hqq : q.queue with
      | nil => rw [hqq] at hq; cases hq
      | cons a as =>
        rw [hqq] at hq
        injection hq with h
        rw [h]
        rfl
    have hmin : ∀ r ∈ q.queue, qe.execute_time ≤ r.execute_time :=
      isHeap_root_min q.queue hh qe hget0
    have hsoon : q.soonest = some qe.execute_time := by
      unfold EventQueue.soonest
      rw [hq]
      rfl
    have hheb : q.has_event_by u = decide (qe.execute_time ≤ u) := by
      unfold EventQueue.has_event_by
      rw [hsoon]
    by_cases hsu : qe.execute_time ≤ u
    · have h1 : q.has_event_by u = true := by
        rw [hheb]
        exact decide_eq_true hsu
      refine ⟨?_, ?_, hmin⟩
      · show (if q.has_event_by u then _ else u) = min u qe.execute_time
        rw [if_pos h1, hsoon, min_eq_right hsu]
      · show q.has_event_by u = true ↔ _
        rw [h1]
        simp [hsu]
    · have h1 : q.has_event_by u = false := by
        rw [hheb]
        exact decide_eq_false hsu
      refine ⟨?_, ?_, hmin⟩
      · show (if q.has_event_by u then _ else u) = min u qe.execute_time
        rw [if_neg (by rw [h1]; exact Bool.false_ne_true),
          min_eq_left (le_of_lt (lt_of_not_le hsu))]
      · show q.has_event_by u = true ↔ _
        rw [h1]
        simp [hsu]

/-- Witness for C3 on the two-event queue `{0@5, 1@3}` with `u = 4`:
`now` becomes `min 4 3 = 3` and the call returns `true`. -/
theorem c3_progress_time_spec_witness :
    (pairQueue.progress_time 4).1.now = 3
    ∧ (pairQueue.progress_time 4).2 = true := by
  have hW : IsHeap pairQueue.queue :=
    heapPush_isHeap _ _ (heapPush_isHeap _ _ isHeap_nil)
  have h := (c3_progress_time_spec pairQueue 4 hW).2 3 rfl
  exact ⟨h.1.trans (by decide), h.2.1.mpr (by decide)⟩

/-- C4 (amended): when invoked events leave the event queue untouched,
`simulate(game, u)` terminates — fuel equal to the queue length
completes the drain — and afterwards `now = u` and every remaining
queued event has execute time `> u`. -/
theorem c4_simulate_drains {G E T : Type} [LinearOrder T]
    (c : SimCtx G E T) (g : G) (u : T)
    (hinv : ∀ e g', c.getQ (c.invoke e g') = c.getQ g')
    (hh : IsHeap (c.getQ g).queue) :
    ∃ g', simulate c ((c.getQ g).queue.length) g u = some g'
      ∧ (c.getQ g').now = u
      ∧ ∀ qe ∈ (c.getQ g').queue, u < qe.execute_time := by
  have finish : ∀ g0 : G, IsHeap (c.getQ g0).queue →
      (c.getQ g0).has_event_by u = false →
      (c.getQ (c.setQ g0 ⟨u, (c.getQ g0).queue⟩)).now = u
      ∧ ∀ qe ∈ (c.getQ (c.setQ g0 ⟨u, (c.getQ g0).queue⟩)).queue,
          u < qe.execute_time := by
    intro g0 hh0 hfalse
    rw [c.get_set]
    refine ⟨rfl, ?_⟩
    intro qe hqe
    unfold EventQueue.has_event_by at hfalse
    cases hs : (c.getQ g0).soonest with
    | none =>
      exfalso
      unfold EventQueue.soonest at hs
      cases hqq : (c.getQ g0).queue with
      | nil =>
        rw [hqq] at hqe
        cases hqe
      | cons a as =>
        rw [hqq] at hs
        cases hs
    | some s =>
      rw [hs] at hfalse
      have hus : u < s := lt_of_not_le (of_decide_eq_false hfalse)
      obtain ⟨r, hr, hrs⟩ : ∃ r, (c.getQ g0).queue.get? 0 = some r
          ∧ r.execute_time = s := by
        unfold EventQueue.soonest at hs
        cases hqq : (c.getQ g0).queue with
        | nil => rw [hqq] at hs; cases hs
        | cons a as =>
          rw [hqq] at hs
          refine ⟨a, rfl, ?_⟩
          simpa using hs
      exact lt_of_lt_of_le hus
        (hrs ▸ isHeap_root_min (c.getQ g0).queue hh0 r hr qe hqe)
  have aux : ∀ n : Nat, ∀ g0 : G, IsHeap (c.getQ g0).queue →
      (c.getQ g0).queue.length ≤ n →
      ∃ g', simulate c n g0 u = some g'
        ∧ (c.getQ g').now = u
        ∧ ∀ qe ∈ (c.getQ g').queue, u < qe.execute_time := by
    intro n
    induction n with
    | zero =>
      intro g0 hh0 hlen
      have hnil : (c.getQ g0).queue = [] :=
        List.length_eq_zero.mp (Nat.le_zero.mp hlen)
      have hfalse : (c.getQ g0).has_event_by u = false := by
        unfold EventQueue.has_event_by EventQueue.soonest
        rw [hnil]
        rfl
      refine ⟨c.setQ g0 ⟨u, (c.getQ g0).queue⟩, ?_, finish g0 hh0 hfalse⟩
      rw [simulate, if_neg (by rw [hfalse]; exact Bool.false_ne_true)]
    | succ n ih =>
      intro g0 hh0 hlen
      by_cases heb : (c.getQ g0).has_event_by u = true
      · cases hpop : heapPop (c.getQ g0).queue with
        | none =>
          exfalso
          have hnil := (heapPop_none_iff _).mp hpop
          unfold EventQueue.has_event_by EventQueue.soonest at heb
          rw [hnil] at heb
          cases heb
        | some p =>
          obtain ⟨qe, rest⟩ := p
          have hstep : invoke_next c g0 = c.invoke qe.call_back
              (c.setQ g0 ⟨if (c.getQ g0).now < qe.execute_time
                then qe.execute_time else (c.getQ g0).now, rest⟩) := by
            unfold invoke_next
            rw [hpop]
          have hq' : c.getQ (invoke_next c g0) =
              ⟨if (c.getQ g0).now < qe.execute_time then qe.execute_time
               else (c.getQ g0).now, rest⟩ := by
            rw [hstep, hinv, c.get_set]
          obtain ⟨g', hsim, hnow, hbound⟩ := ih (invoke_next c g0)
            (by rw [hq']; exact heapPop_isHeap hh0 hpop)
            (by
              rw [hq']
              show rest.length ≤ n
              have := (heapPop_facts hpop).2
              omega)
          refine ⟨g', ?_, hnow, hbound⟩
          rw [simulate, if_pos heb]
          exact hsim
      · have hfalse : (c.getQ g0).has_event_by u = false :=
          Bool.not_eq_true _ ▸ eq_false_of_ne_true heb
        refine ⟨c.setQ g0 ⟨u, (c.getQ g0).queue⟩, ?_,
          finish g0 hh0 hfalse⟩
        rw [simulate, if_neg (by rw [hfalse]; exact Bool.false_ne_true)]
  exact aux ((c.getQ g).queue.length) g hh (le_refl _)

/-- Witness for C4 (amended) on the two-event queue `{0@5, 1@3}` with
logging events and `u = 10`: the drain with fuel 2 finishes, sets
`now = 10` and leaves no event at a time `≤ 10`. -/
theorem c4_simulate_drains_witness :
    ∃ g', simulate logCtx
        ((logCtx.getQ ⟨pairQueue, []⟩).queue.length) ⟨pairQueue, []⟩ 10
        = some g'
      ∧ (logCtx.getQ g').now = 10
      ∧ ∀ qe ∈ (logCtx.getQ g').queue, (10 : Int) < qe.execute_time :=
  c4_simulate_drains logCtx ⟨pairQueue, []⟩ 10 (fun _ _ => rfl)
    (heapPush_isHeap _ _ (heapPush_isHeap _ _ isHeap_nil))

end Sulphate
